import Mathlib

/-!
Verification of the `@include` directive scanner and the recursive include
resolver of this repository (`src/utils/includeDirectiveParser.ts`).

Strings are embedded as `List Char`.  The JavaScript regular expressions are
embedded as explicit matching functions that reproduce the backtracking
semantics of the two anchored patterns used by the source, and the Node
`path` (posix) primitives used by `normalizePath` are embedded segment-wise.
`os.homedir()` and `process.cwd()` are ambient environment values in the
source; they appear here as explicit `home` / `cwd` parameters.
-/

namespace IncludeResolution

/-- Strings of the embedded program. -/
abbrev Str := List Char

/-- The ECMAScript whitespace class: the set of characters matched by `\s`
in a JavaScript regular expression (and removed by `String.prototype.trim`). -/
def jsWs (c : Char) : Bool :=
  let n := c.toNat
  n = 9 || n = 10 || n = 11 || n = 12 || n = 13 || n = 32 ||
  n = 0xa0 || n = 0x1680 || (0x2000 ≤ n && n ≤ 0x200a) ||
  n = 0x2028 || n = 0x2029 || n = 0x202f || n = 0x205f || n = 0x3000 || n = 0xfeff

/-- The characters matched by `.` in a JavaScript regular expression without
the `s` flag: everything except the four line terminators. -/
def jsDot (c : Char) : Bool :=
  let n := c.toNat
  !(n = 10 || n = 13 || n = 0x2028 || n = 0x2029)

/-- Embeds `String.prototype.trim`: strip leading and trailing ECMAScript whitespace. -/
def jsTrim (s : Str) : Str :=
  ((s.dropWhile jsWs).reverse.dropWhile jsWs).reverse

/-- The keyword of the directive syntax. -/
def includeKeyword : Str := "@include".toList

/-- Matcher for the regex fragment `\s*(.+)$` with JavaScript backtracking
semantics: the greedy `\s*` prefers to consume a whitespace character and
falls back to letting `(.+)` start there.  Returns the capture of `(.+)`. -/
def matchTail : Str → Option Str
  | [] => none
  | c :: cs =>
    if jsWs c then
      match matchTail cs with
      | some cap => some cap
      | none => if (c :: cs).all jsDot then some (c :: cs) else none
    else
      if (c :: cs).all jsDot then some (c :: cs) else none

/-- Embeds `INCLUDE_DIRECTIVE_REGEX = /^\s*@include\s+(.+)$/` : returns the capture
group when the line matches.  The greedy anchored `^\s*` followed by the
literal `@` forces the keyword to start at the first non-whitespace
character; `\s+` requires one whitespace character after the keyword and the
rest is `matchTail`. -/
def matchIncludeDirective (line : Str) : Option Str :=
  let rest := line.dropWhile jsWs
  if includeKeyword.isPrefixOf rest then
    match rest.drop includeKeyword.length with
    | [] => none
    | c :: cs => if jsWs c then matchTail cs else none
  else none

/-- Embeds `INCOMPLETE_INCLUDE_REGEX = /^\s*@include\s*$/` as a test. -/
def testIncompleteInclude (line : Str) : Bool :=
  let rest := line.dropWhile jsWs
  includeKeyword.isPrefixOf rest && (rest.drop includeKeyword.length).all jsWs

/-- Embeds `String.prototype.split` with a one-character separator (used by the
source both for `content.split("\n")` and, inside the path model, for
splitting a path on `/`).  `"".split(sep)` is `[""]`. -/
def splitChar (c : Char) : Str → List Str
  | [] => [[]]
  | a :: as =>
    let r := splitChar c as
    if a = c then [] :: r
    else
      match r with
      | [] => [[a]]
      | h :: t => (a :: h) :: t

/-- Core of Node's posix `normalizeString`: process the `/`-separated
segments of a path, dropping empty and `.` segments and resolving `..`
against the accumulator; `allowAboveRoot` keeps leading `..` segments for
relative paths.  The accumulator holds processed segments in reverse. -/
def processSegs (allowAboveRoot : Bool) : List Str → List Str → List Str
  | acc, [] => acc.reverse
  | acc, s :: rest =>
    if s = [] ∨ s = ['.'] then processSegs allowAboveRoot acc rest
    else if s = ['.', '.'] then
      match acc with
      | [] =>
        if allowAboveRoot then processSegs allowAboveRoot [['.', '.']] rest
        else processSegs allowAboveRoot [] rest
      | t :: acc2 =>
        if t = ['.', '.'] then processSegs allowAboveRoot (s :: t :: acc2) rest
        else processSegs allowAboveRoot acc2 rest
    else processSegs allowAboveRoot (s :: acc) rest

/-- Join segments with a separator character (Node joins the processed
segments with `/`; the resolver joins lines back with a line feed). -/
def joinSep (c : Char) : List Str → Str
  | [] => []
  | [s] => s
  | s :: rest => s ++ c :: joinSep c rest

/-- Embeds `path.posix.isAbsolute`. -/
def isAbsolute (p : Str) : Bool :=
  match p with
  | [] => false
  | c :: _ => c = '/'

/-- Whether a path ends with a separator. -/
def endsWithSlash (p : Str) : Bool :=
  match p.getLast? with
  | some c => c = '/'
  | none => false

/-- Embeds `path.posix.normalize`. -/
def normalize (p : Str) : Str :=
  if p = [] then ['.']
  else
    let abs := isAbsolute p
    let trail := endsWithSlash p
    let segs := processSegs (!abs) [] (splitChar '/' p)
    let body := joinSep '/' segs
    if body = [] then
      if abs then ['/'] else if trail then ['.', '/'] else ['.']
    else
      let body2 := if trail then body ++ ['/'] else body
      if abs then '/' :: body2 else body2

/-- Embeds `path.posix.join` with two arguments: concatenate the non-empty parts
with a separator and normalize; all parts empty gives `"."`. -/
def join2 (a b : Str) : Str :=
  let joined := if a = [] then b else if b = [] then a else a ++ '/' :: b
  if joined = [] then ['.'] else normalize joined

/-- Embeds `path.posix.resolve(base, p)`.  Node walks the arguments right to left,
prepending each (with a separator) until an absolute one is reached, falling
back to `process.cwd()` (here the explicit `cwd`), then normalizes without a
trailing separator. -/
def resolve2 (cwd base p : Str) : Str :=
  let chain :=
    if isAbsolute p then p ++ ['/']
    else if base = [] then cwd ++ '/' :: (p ++ ['/'])
    else if isAbsolute base then base ++ '/' :: (p ++ ['/'])
    else cwd ++ '/' :: (base ++ '/' :: (p ++ ['/']))
  let abs := isAbsolute chain
  let segs := processSegs (!abs) [] (splitChar '/' chain)
  let body := joinSep '/' segs
  if abs then (if body = [] then ['/'] else '/' :: body)
  else (if body = [] then ['.'] else body)

/-- Embeds `path.posix.dirname`: skip trailing separators, skip the last segment,
and cut at the separator found there; with the root handling of Node. -/
def dirname (p : Str) : Str :=
  if p = [] then ['.']
  else
    let r1 := p.reverse.dropWhile (fun c => c = '/')
    let r2 := r1.dropWhile (fun c => !(c = '/'))
    if r2 = [] then (if isAbsolute p then ['/'] else ['.'])
    else
      let e := r2.length - 1
      if e = 0 then ['/']
      else if isAbsolute p && e = 1 then ['/', '/']
      else p.take e

/-- Embeds `interface IncludeDirective` of the source. -/
structure IncludeDirective where
  originalLine : Str
  lineNumber : Nat
  rawPath : Str
  resolvedPath : Str
  deriving Repr, DecidableEq

/-- Embeds `interface ParseError` of the source (scanner errors). -/
structure ParseError where
  lineNumber : Nat
  line : Str
  message : Str
  deriving Repr, DecidableEq

/-- Embeds `interface ParseResult` of the source. -/
structure ParseResult where
  originalContent : Str
  directives : List IncludeDirective
  errors : List ParseError
  deriving Repr, DecidableEq

/-- Embeds `normalizePath` of the source: trim, expand a leading `~`, keep absolute
paths (normalized), resolve anything else against `basePath`.  `home` stands
for `os.homedir()` and `cwd` for `process.cwd()`. -/
def normalizePath (home cwd : Str) (inputPath basePath : Str) : Str :=
  let trimmedPath := jsTrim inputPath
  if ['~', '/'].isPrefixOf trimmedPath || trimmedPath = ['~'] then
    if trimmedPath = ['~'] then home
    else join2 home (trimmedPath.drop 2)
  else if isAbsolute trimmedPath then normalize trimmedPath
  else resolve2 cwd basePath trimmedPath

/-- Embeds `parseIncludeLine` of the source: match the directive regex, trim the
captured path, reject an empty result, and resolve the path. -/
def parseIncludeLine (home cwd : Str) (line : Str) (lineNumber : Nat)
    (basePath : Str) : Option IncludeDirective :=
  match matchIncludeDirective line with
  | none => none
  | some cap =>
    let rawPath := jsTrim cap
    if rawPath = [] then none
    else some ⟨line, lineNumber, rawPath, normalizePath home cwd rawPath basePath⟩

/-- The error message pushed by `parseIncludeDirectives` for a directive
without a usable path. -/
def emptyPathMessage : Str := "Invalid @include directive: path cannot be empty".toList

/-- The loop body of `parseIncludeDirectives`: classify each line, starting
at 0-based index `i` (line numbers are `i + 1`). -/
def scanLines (home cwd basePath : Str) : Nat → List Str →
    List IncludeDirective × List ParseError
  | _, [] => ([], [])
  | i, l :: ls =>
    let rest := scanLines home cwd basePath (i + 1) ls
    if (matchIncludeDirective l).isSome then
      match parseIncludeLine home cwd l (i + 1) basePath with
      | some d => (d :: rest.1, rest.2)
      | none => (rest.1, ⟨i + 1, l, emptyPathMessage⟩ :: rest.2)
    else if testIncompleteInclude l then
      (rest.1, ⟨i + 1, l, emptyPathMessage⟩ :: rest.2)
    else rest

/-- Embeds `parseIncludeDirectives` of the source: split on line feeds, scan every
line, and return the original content together with directives and errors. -/
def parseIncludeDirectives (home cwd : Str) (content basePath : Str) : ParseResult :=
  let r := scanLines home cwd basePath 0 (splitChar '\n' content)
  ⟨content, r.1, r.2⟩

/-- Embeds `isIncludeDirective` of the source: `INCLUDE_DIRECTIVE_REGEX.test(line)`. -/
def isIncludeDirective (line : Str) : Bool :=
  (matchIncludeDirective line).isSome

/-- Embeds `extractIncludePath` of the source. -/
def extractIncludePath (line : Str) : Option Str :=
  match matchIncludeDirective line with
  | none => none
  | some cap =>
    let rawPath := jsTrim cap
    if rawPath = [] then none else some rawPath

/-- Embeds `DEFAULT_MAX_DEPTH` of the source. -/
def DEFAULT_MAX_DEPTH : Nat := 10

/-- Modelled from the spec: the outcome of the injected read capability
(§6): the file's text, a missing-file signal, or another I/O failure.  The
repository declares the capability type in `ProcessOptions` but the resolver
implementation itself is not under `src/`. -/
inductive ReadRes where
  | ok (content : Str)
  | notFound
  | failed
  deriving Repr, DecidableEq

/-- The `type` discriminator of `interface ProcessError` of the source. -/
inductive ProcessErrorType where
  | file_not_found
  | circular_include
  | max_depth
  | read_error
  | parse_error
  deriving Repr, DecidableEq

/-- Embeds `interface ProcessError` of the source. -/
structure ProcessError where
  filePath : Str
  lineNumber : Option Nat
  message : Str
  type : ProcessErrorType
  deriving Repr, DecidableEq

/-- Embeds `interface ProcessResult` of the source. -/
structure ProcessResult where
  content : Str
  includedPaths : List Str
  errors : List ProcessError
  deriving Repr, DecidableEq

/-- Modelled from the spec (§4.2 step 2a): the `max_depth` error. -/
def maxDepthError (d : IncludeDirective) : ProcessError :=
  ⟨d.resolvedPath, some d.lineNumber, "Maximum include depth exceeded".toList,
    ProcessErrorType.max_depth⟩

/-- Modelled from the spec (§4.2 step 2b): the `circular_include` error. -/
def circularError (d : IncludeDirective) : ProcessError :=
  ⟨d.resolvedPath, some d.lineNumber, "Circular include detected".toList,
    ProcessErrorType.circular_include⟩

/-- Modelled from the spec (§4.2 step 2c): the `file_not_found` error. -/
def notFoundError (d : IncludeDirective) : ProcessError :=
  ⟨d.resolvedPath, some d.lineNumber, "File not found".toList,
    ProcessErrorType.file_not_found⟩

/-- Modelled from the spec (§4.2 step 2c): the `read_error` error. -/
def readFailError (d : IncludeDirective) : ProcessError :=
  ⟨d.resolvedPath, some d.lineNumber, "Failed to read file".toList,
    ProcessErrorType.read_error⟩

/-- Modelled from the spec (§4.2 step 1): a scanner error surfaced at the
resolver level, tagged `parse_error` and carrying the original line number. -/
def parseLevelError (basePath : Str) (e : ParseError) : ProcessError :=
  ⟨basePath, some e.lineNumber, e.message, ProcessErrorType.parse_error⟩

/-- Modelled from the spec (§4.2 step 2): processing of one directive.
`child` is the recursive resolution at depth + 1, or `none` when the depth
limit is reached.  Returns the included paths, the errors, and the splice
(line number, replacement content) contributed by this directive. -/
def handleDirective (rf : Str → ReadRes) (child : Option (Str → Str → ProcessResult))
    (anc : List Str) (d : IncludeDirective) :
    List Str × List ProcessError × List (Nat × Str) :=
  match child with
  | none => ([], [maxDepthError d], [])
  | some k =>
    if d.resolvedPath ∈ anc then ([], [circularError d], [])
    else
      match rf d.resolvedPath with
      | ReadRes.notFound => ([], [notFoundError d], [])
      | ReadRes.failed => ([], [readFailError d], [])
      | ReadRes.ok c =>
        let sub := k d.resolvedPath c
        (d.resolvedPath :: sub.includedPaths, sub.errors, [(d.lineNumber, sub.content)])

/-- Modelled from the spec (§4.2 step 2): process the directives in order,
concatenating each directive's subtree results before the next sibling's. -/
def handleDirectives (rf : Str → ReadRes) (child : Option (Str → Str → ProcessResult))
    (anc : List Str) : List IncludeDirective →
    List Str × List ProcessError × List (Nat × Str)
  | [] => ([], [], [])
  | d :: ds =>
    let h := handleDirective rf child anc d
    let r := handleDirectives rf child anc ds
    (h.1 ++ r.1, h.2.1 ++ r.2.1, h.2.2 ++ r.2.2)

/-- Modelled from the spec (§4.2 step 2d): splice each successfully expanded
directive's recursive content in place of its line (lines whose expansion
was skipped are left verbatim, the deterministic choice §9 asks for). -/
def spliceLines (repl : List (Nat × Str)) : Nat → List Str → List Str
  | _, [] => []
  | i, l :: ls =>
    let l2 := match repl.lookup (i + 1) with | some t => t | none => l
    l2 :: spliceLines repl (i + 1) ls

/-- Modelled from the spec (§4.2): the recursive resolution algorithm.  The
repository only declares its interface types (`ProcessOptions`,
`ProcessResult`, `ProcessError`); the implementation is not under `src/`.
`fuel` is `maxDepth - currentDepth`, so `fuel = 0` is the `currentDepth >=
maxDepth` test of step 2a, and recursion structurally decreases it: the
depth limit is what makes every resolution terminate.  `anc` is the
ancestor chain of step 2b. -/
def resolveGo (rf : Str → ReadRes) (home cwd : Str) :
    Nat → List Str → Str → Str → ProcessResult
  | fuel, anc, content, basePath =>
    let scanRes := parseIncludeDirectives home cwd content basePath
    let parseErrs := scanRes.errors.map (parseLevelError basePath)
    let child : Option (Str → Str → ProcessResult) :=
      match fuel with
      | 0 => none
      | f + 1 => some (fun p c => resolveGo rf home cwd f (p :: anc) c (dirname p))
    let h := handleDirectives rf child anc scanRes.directives
    let lines := splitChar '\n' content
    ⟨joinSep '\n' (spliceLines h.2.2 0 lines), h.1, parseErrs ++ h.2.1⟩

/-- Modelled from the spec (§4.2): a top-level `resolve` call, with default
options: empty ancestor chain, `currentDepth = 0`, `maxDepth = 10`. -/
def resolveIncludes (rf : Str → ReadRes) (home cwd : Str) (content basePath : Str) :
    ProcessResult :=
  resolveGo rf home cwd DEFAULT_MAX_DEPTH [] content basePath

/-- Classification of a line that yields a `Directive`: the directive regex
matches and the trimmed capture is non-empty. -/
def directiveLine (l : Str) : Bool :=
  match matchIncludeDirective l with
  | some cap => !(jsTrim cap).isEmpty
  | none => false

/-- Classification of a line that yields a `ParseError`: either the
directive regex matches with a whitespace-only capture, or the line is a
bare keyword (the incomplete-directive regex). -/
def scanErrorLine (l : Str) : Bool :=
  match matchIncludeDirective l with
  | some cap => (jsTrim cap).isEmpty
  | none => testIncompleteInclude l

/-- A fully processed path segment: non-empty, not a dot segment, and free
of separators.  `processSegs` with `allowAboveRoot = false` only ever
returns such segments. -/
def goodSeg (s : Str) : Prop :=
  s ≠ [] ∧ s ≠ ['.'] ∧ s ≠ ['.', '.'] ∧ '/' ∉ s

/-- One step of the inclusion graph of the resolver model: file `p` can be
read and its content, scanned against `p`'s directory, has a directive
resolving to `q`. -/
def Step (rf : Str → ReadRes) (home cwd : Str) (p q : Str) : Prop :=
  ∃ c, rf p = ReadRes.ok c ∧
    q ∈ (parseIncludeDirectives home cwd c (dirname p)).directives.map
      IncludeDirective.resolvedPath

/-- A path is reachable from a document: some directive of the document
resolves to a file from which `q` is reachable through `Step`. -/
def ReachFromDoc (rf : Str → ReadRes) (home cwd : Str) (content basePath : Str)
    (q : Str) : Prop :=
  ∃ d0 ∈ (parseIncludeDirectives home cwd content basePath).directives.map
      IncludeDirective.resolvedPath,
    Relation.ReflTransGen (Step rf home cwd) d0 q

/-- A concrete read capability: `/f` holds a single self-including
directive. -/
def readSelfOnce : Str → ReadRes := fun p =>
  if p = "/f".toList then ReadRes.ok "@include /f".toList else ReadRes.notFound

/-- A concrete read capability: `/f` holds two self-including directives. -/
def readSelfTwice : Str → ReadRes := fun p =>
  if p = "/f".toList then ReadRes.ok "@include /f\n@include /f".toList
  else ReadRes.notFound

/-- A concrete read capability: `/p` is a plain leaf file. -/
def readDiamondLeaf : Str → ReadRes := fun p =>
  if p = "/p".toList then ReadRes.ok "leaf".toList else ReadRes.notFound

/-- A concrete read capability: `/p` is a plain leaf file and `/q` includes
itself. -/
def readDiamondCyc : Str → ReadRes := fun p =>
  if p = "/p".toList then ReadRes.ok "leaf".toList
  else if p = "/q".toList then ReadRes.ok "@include /q".toList
  else ReadRes.notFound

/-! ### Basic lemmas about the scanner -/

theorem jsTrim_eq_rdropWhile (s : Str) :
    jsTrim s = List.rdropWhile jsWs (s.dropWhile jsWs) := rfl

theorem dropWhile_head_false {p : Char → Bool} :
    ∀ (l : Str) (a : Char) (r : Str), l.dropWhile p = a :: r → p a = false := by
  intro l
  induction l with
  | nil => intro a r h; simp [List.dropWhile] at h
  | cons b l ih =>
    intro a r h
    rw [List.dropWhile_cons] at h
    by_cases hb : p b = true
    · rw [if_pos hb] at h
      exact ih a r h
    · rw [if_neg hb] at h
      cases h
      exact Bool.not_eq_true _ |>.mp hb

theorem jsTrim_idem (s : Str) : jsTrim (jsTrim s) = jsTrim s := by
  rw [jsTrim_eq_rdropWhile, jsTrim_eq_rdropWhile]
  have h1 : (List.rdropWhile jsWs (s.dropWhile jsWs)).dropWhile jsWs =
      List.rdropWhile jsWs (s.dropWhile jsWs) := by
    cases h0 : List.rdropWhile jsWs (s.dropWhile jsWs) with
    | nil => rfl
    | cons a u =>
      obtain ⟨t, ht⟩ := List.rdropWhile_prefix jsWs (s.dropWhile jsWs)
      rw [h0] at ht
      have ha : jsWs a = false :=
        dropWhile_head_false s a (u ++ t) (by rw [← ht]; simp)
      simp [List.dropWhile, ha]
  rw [h1, List.rdropWhile_idempotent]

theorem parseIncludeLine_isSome (home cwd l bp : Str) (n : Nat) :
    (parseIncludeLine home cwd l n bp).isSome = directiveLine l := by
  unfold parseIncludeLine directiveLine
  cases matchIncludeDirective l with
  | none => rfl
  | some cap => by_cases h : jsTrim cap = [] <;> simp [h]

theorem parseIncludeLine_fields (home cwd l bp : Str) (n : Nat) (d : IncludeDirective)
    (h : parseIncludeLine home cwd l n bp = some d) :
    d.originalLine = l ∧ d.lineNumber = n := by
  unfold parseIncludeLine at h
  cases hm : matchIncludeDirective l with
  | none => rw [hm] at h; cases h
  | some cap =>
    rw [hm] at h
    by_cases ht : jsTrim cap = []
    · simp [ht] at h
    · simp [ht] at h
      rw [← h]
      exact ⟨rfl, rfl⟩

theorem scanError_not_directive (l : Str) (h : scanErrorLine l = true) :
    directiveLine l = false := by
  unfold scanErrorLine at h
  unfold directiveLine
  cases hm : matchIncludeDirective l with
  | none => simp [hm]
  | some cap =>
    rw [hm] at h
    simp only [hm]
    simp at h
    simp [h]

/-- One step of `scanLines`, phrased by the classification of the head
line. -/
theorem scanLines_cons (home cwd bp : Str) (i : Nat) (l : Str) (ls : List Str) :
    scanLines home cwd bp i (l :: ls) =
      match parseIncludeLine home cwd l (i + 1) bp with
      | some d =>
        (d :: (scanLines home cwd bp (i + 1) ls).1, (scanLines home cwd bp (i + 1) ls).2)
      | none =>
        if scanErrorLine l then
          ((scanLines home cwd bp (i + 1) ls).1,
            ⟨i + 1, l, emptyPathMessage⟩ :: (scanLines home cwd bp (i + 1) ls).2)
        else scanLines home cwd bp (i + 1) ls := by
  cases hm : matchIncludeDirective l with
  | none =>
    have hp : parseIncludeLine home cwd l (i + 1) bp = none := by
      unfold parseIncludeLine; rw [hm]
    simp only [scanLines, hm, Option.isSome_none, Bool.false_eq_true, if_false, hp]
    unfold scanErrorLine
    rw [hm]
  | some cap =>
    by_cases ht : jsTrim cap = []
    · have hp : parseIncludeLine home cwd l (i + 1) bp = none := by
        unfold parseIncludeLine; rw [hm]; simp [ht]
      have he : scanErrorLine l = true := by
        unfold scanErrorLine; rw [hm]; simp [ht]
      simp only [scanLines, hm, Option.isSome_some, if_true, hp, he]
    · have hp : parseIncludeLine home cwd l (i + 1) bp =
          some ⟨l, i + 1, jsTrim cap, normalizePath home cwd (jsTrim cap) bp⟩ := by
        unfold parseIncludeLine; rw [hm]; simp [ht]
      simp only [scanLines, hm, Option.isSome_some, if_true, hp]

theorem scanLines_fst_length (home cwd bp : Str) :
    ∀ (ls : List Str) (i : Nat),
      (scanLines home cwd bp i ls).1.length = (ls.filter directiveLine).length := by
  intro ls
  induction ls with
  | nil => intro i; rfl
  | cons l ls ih =>
    intro i
    rw [scanLines_cons]
    cases hp : parseIncludeLine home cwd l (i + 1) bp with
    | some d =>
      have hd : directiveLine l = true := by
        rw [← parseIncludeLine_isSome home cwd l bp (i + 1), hp]; rfl
      simp [List.filter_cons, hd, ih]
    | none =>
      have hd : directiveLine l = false := by
        rw [← parseIncludeLine_isSome home cwd l bp (i + 1), hp]; rfl
      by_cases he : scanErrorLine l = true <;> simp [List.filter_cons, hd, ih, he]

theorem scanLines_fst_mem (home cwd bp : Str) :
    ∀ (ls : List Str) (i : Nat) (d : IncludeDirective),
      d ∈ (scanLines home cwd bp i ls).1 →
      ∃ j, d.lineNumber = i + j + 1 ∧ ls.get? j = some d.originalLine ∧
        parseIncludeLine home cwd d.originalLine d.lineNumber bp = some d := by
  intro ls
  induction ls with
  | nil => intro i d h; simp [scanLines] at h
  | cons l ls ih =>
    intro i d h
    rw [scanLines_cons] at h
    cases hp : parseIncludeLine home cwd l (i + 1) bp with
    | some d0 =>
      rw [hp] at h
      rcases List.mem_cons.mp h with h0 | h0
      · subst h0
        obtain ⟨hol, hln⟩ := parseIncludeLine_fields home cwd l bp (i + 1) d hp
        refine ⟨0, by omega, by simp [hol], ?_⟩
        rw [hol, hln]
        exact hp
      · obtain ⟨j, hj1, hj2, hj3⟩ := ih (i + 1) d h0
        exact ⟨j + 1, by omega, by simpa using hj2, hj3⟩
    | none =>
      rw [hp] at h
      by_cases he : scanErrorLine l = true
      · rw [if_pos he] at h
        obtain ⟨j, hj1, hj2, hj3⟩ := ih (i + 1) d h
        exact ⟨j + 1, by omega, by simpa using hj2, hj3⟩
      · rw [if_neg he] at h
        obtain ⟨j, hj1, hj2, hj3⟩ := ih (i + 1) d h
        exact ⟨j + 1, by omega, by simpa using hj2, hj3⟩

theorem scanLines_snd_mem (home cwd bp : Str) :
    ∀ (ls : List Str) (i : Nat) (e : ParseError),
      e ∈ (scanLines home cwd bp i ls).2 →
      ∃ j, e.lineNumber = i + j + 1 ∧ ls.get? j = some e.line ∧
        scanErrorLine e.line = true ∧ e.message = emptyPathMessage := by
  intro ls
  induction ls with
  | nil => intro i e h; simp [scanLines] at h
  | cons l ls ih =>
    intro i e h
    rw [scanLines_cons] at h
    cases hp : parseIncludeLine home cwd l (i + 1) bp with
    | some d0 =>
      rw [hp] at h
      obtain ⟨j, hj1, hj2, hj3, hj4⟩ := ih (i + 1) e h
      exact ⟨j + 1, by omega, by simpa using hj2, hj3, hj4⟩
    | none =>
      rw [hp] at h
      by_cases he : scanErrorLine l = true
      · rw [if_pos he] at h
        rcases List.mem_cons.mp h with h0 | h0
        · subst h0
          exact ⟨0, by simp, by simp, he, rfl⟩
        · obtain ⟨j, hj1, hj2, hj3, hj4⟩ := ih (i + 1) e h0
          exact ⟨j + 1, by omega, by simpa using hj2, hj3, hj4⟩
      · rw [if_neg he] at h
        obtain ⟨j, hj1, hj2, hj3, hj4⟩ := ih (i + 1) e h
        exact ⟨j + 1, by omega, by simpa using hj2, hj3, hj4⟩

theorem scanLines_fst_pairwise (home cwd bp : Str) :
    ∀ (ls : List Str) (i : Nat),
      List.Pairwise (fun a b => a < b)
        ((scanLines home cwd bp i ls).1.map IncludeDirective.lineNumber) := by
  intro ls
  induction ls with
  | nil => intro i; simp [scanLines]
  | cons l ls ih =>
    intro i
    rw [scanLines_cons]
    cases hp : parseIncludeLine home cwd l (i + 1) bp with
    | some d0 =>
      obtain ⟨_, hln⟩ := parseIncludeLine_fields home cwd l bp (i + 1) d0 hp
      simp only [List.map_cons, List.pairwise_cons]
      constructor
      · intro x hx
        obtain ⟨d, hd, hdx⟩ := List.mem_map.mp hx
        obtain ⟨j, hj1, _, _⟩ := scanLines_fst_mem home cwd bp ls (i + 1) d hd
        omega
      · exact ih (i + 1)
    | none =>
      by_cases he : scanErrorLine l = true <;> simp [he, ih (i + 1)]

/-! ### Lemmas about the path model -/

theorem joinSep_singleton (c : Char) (s : Str) : joinSep c [s] = s := rfl

theorem joinSep_cons_cons (c : Char) (s s2 : Str) (ss : List Str) :
    joinSep c (s :: s2 :: ss) = s ++ c :: joinSep c (s2 :: ss) := rfl

theorem processSegs_nil (b : Bool) (acc : List Str) :
    processSegs b acc [] = acc.reverse := rfl

theorem processSegs_cons_eq (b : Bool) (acc : List Str) (s : Str) (rest : List Str) :
    processSegs b acc (s :: rest) =
      if s = [] ∨ s = ['.'] then processSegs b acc rest
      else if s = ['.', '.'] then
        match acc with
        | [] => if b then processSegs b [['.', '.']] rest else processSegs b [] rest
        | t :: acc2 =>
          if t = ['.', '.'] then processSegs b (s :: t :: acc2) rest
          else processSegs b acc2 rest
      else processSegs b (s :: acc) rest := rfl

theorem processSegs_push (b : Bool) (acc : List Str) (s : Str) (rest : List Str)
    (h1 : ¬(s = [] ∨ s = ['.'])) (h2 : s ≠ ['.', '.']) :
    processSegs b acc (s :: rest) = processSegs b (s :: acc) rest := by
  rw [processSegs_cons_eq, if_neg h1, if_neg h2]

theorem processSegs_ddot_pop (b : Bool) (t : Str) (acc2 : List Str) (rest : List Str)
    (h : t ≠ ['.', '.']) :
    processSegs b (t :: acc2) (['.', '.'] :: rest) = processSegs b acc2 rest := by
  rw [processSegs_cons_eq, if_neg (by decide), if_pos rfl]
  exact if_neg h

theorem splitChar_ne_nil (c : Char) : ∀ l : Str, splitChar c l ≠ [] := by
  intro l
  cases l with
  | nil => simp [splitChar]
  | cons a as =>
    simp only [splitChar]
    by_cases h : a = c
    · simp [h]
    · simp only [h, if_false]
      cases splitChar c as <;> simp

theorem splitChar_no_sep (c : Char) : ∀ l : Str, ∀ s ∈ splitChar c l, c ∉ s := by
  intro l
  induction l with
  | nil => intro s hs; simp [splitChar] at hs; simp [hs]
  | cons a as ih =>
    intro s hs
    simp only [splitChar] at hs
    by_cases h : a = c
    · rw [if_pos h] at hs
      rcases List.mem_cons.mp hs with h0 | h0
      · simp [h0]
      · exact ih s h0
    · rw [if_neg h] at hs
      cases hr : splitChar c as with
      | nil => exact absurd hr (splitChar_ne_nil c as)
      | cons h0 t0 =>
        rw [hr] at hs
        rcases List.mem_cons.mp hs with h1 | h1
        · subst h1
          intro hc
          rcases List.mem_cons.mp hc with h2 | h2
          · exact h h2.symm
          · exact ih h0 (by rw [hr]; exact List.mem_cons_self _ _) h2
        · exact ih s (by rw [hr]; exact List.mem_cons_of_mem _ h1)

theorem splitChar_sep_cons (c : Char) (l : Str) :
    splitChar c (c :: l) = [] :: splitChar c l := by
  simp [splitChar]

theorem splitChar_of_no_sep (c : Char) : ∀ p : Str, c ∉ p → splitChar c p = [p] := by
  intro p
  induction p with
  | nil => intro _; rfl
  | cons a as ih =>
    intro h
    have ha : ¬ a = c := fun hc => h (by simp [hc])
    have has : c ∉ as := fun hc => h (List.mem_cons_of_mem _ hc)
    simp only [splitChar, if_neg ha, ih has]

theorem splitChar_piece_cons (c : Char) : ∀ p : Str, c ∉ p → ∀ rest : Str,
    splitChar c (p ++ c :: rest) = p :: splitChar c rest := by
  intro p
  induction p with
  | nil =>
    intro _ rest
    simp [splitChar_sep_cons]
  | cons a as ih =>
    intro h rest
    have ha : ¬ a = c := fun hc => h (by simp [hc])
    have has : c ∉ as := fun hc => h (List.mem_cons_of_mem _ hc)
    have hi := ih has rest
    simp only [List.cons_append, List.append_eq, splitChar, if_neg ha, hi]

theorem splitChar_joinSep (c : Char) : ∀ pieces : List Str, pieces ≠ [] →
    (∀ s ∈ pieces, c ∉ s) → splitChar c (joinSep c pieces) = pieces := by
  intro pieces
  induction pieces with
  | nil => intro h; exact absurd rfl h
  | cons p ps ih =>
    intro _ hfree
    cases ps with
    | nil => exact splitChar_of_no_sep c p (hfree p (List.mem_cons_self _ _))
    | cons p2 ps2 =>
      rw [joinSep_cons_cons, splitChar_piece_cons c p (hfree p (List.mem_cons_self _ _))]
      rw [ih (List.cons_ne_nil _ _) (fun s hs => hfree s (List.mem_cons_of_mem _ hs))]

theorem joinSep_ne_nil (c : Char) : ∀ segs : List Str, segs ≠ [] →
    (∀ s ∈ segs, s ≠ []) → joinSep c segs ≠ [] := by
  intro segs
  cases segs with
  | nil => intro h; exact absurd rfl h
  | cons s ss =>
    intro _ hne
    cases ss with
    | nil => exact hne s (List.mem_cons_self _ _)
    | cons s2 ss2 =>
      rw [joinSep_cons_cons]
      intro h
      rcases List.append_eq_nil.mp h with ⟨_, h2⟩
      cases h2

theorem joinSep_snoc_empty (c : Char) : ∀ segs : List Str, segs ≠ [] →
    joinSep c (segs ++ [[]]) = joinSep c segs ++ [c] := by
  intro segs
  induction segs with
  | nil => intro h; exact absurd rfl h
  | cons s ss ih =>
    intro _
    cases ss with
    | nil => rfl
    | cons s2 ss2 =>
      have hi := ih (List.cons_ne_nil _ _)
      simp only [List.cons_append] at hi ⊢
      rw [joinSep_cons_cons c s s2 (ss2 ++ [[]]), joinSep_cons_cons c s s2 ss2, hi]
      simp

theorem joinSep_getLast_ne (c : Char) : ∀ segs : List Str, segs ≠ [] →
    (∀ s ∈ segs, s ≠ [] ∧ c ∉ s) →
    ∀ a, (joinSep c segs).getLast? = some a → a ≠ c := by
  intro segs
  induction segs with
  | nil => intro h; exact absurd rfl h
  | cons s ss ih =>
    intro _ hg a ha
    cases ss with
    | nil =>
      rw [joinSep_singleton] at ha
      have hmem : a ∈ s := by
        obtain ⟨h, rfl⟩ := List.mem_getLast?_eq_getLast (by simpa using ha)
        exact List.getLast_mem h
      intro hc
      subst hc
      exact (hg s (List.mem_cons_self _ _)).2 hmem
    | cons s2 ss2 =>
      rw [joinSep_cons_cons] at ha
      have hne : joinSep c (s2 :: ss2) ≠ [] :=
        joinSep_ne_nil c (s2 :: ss2) (List.cons_ne_nil _ _)
          (fun t ht => (hg t (List.mem_cons_of_mem _ ht)).1)
      rw [List.getLast?_append_of_ne_nil _ (List.cons_ne_nil _ _)] at ha
      have hc2 : (c :: joinSep c (s2 :: ss2)).getLast? = (joinSep c (s2 :: ss2)).getLast? := by
        have h1 : c :: joinSep c (s2 :: ss2) = [c] ++ joinSep c (s2 :: ss2) := rfl
        rw [h1, List.getLast?_append_of_ne_nil _ hne]
      rw [hc2] at ha
      exact ih (List.cons_ne_nil _ _) (fun t ht => hg t (List.mem_cons_of_mem _ ht)) a ha

theorem processSegs_good : ∀ (segs acc : List Str),
    (∀ s ∈ segs, '/' ∉ s) → (∀ s ∈ acc, goodSeg s) →
    ∀ s ∈ processSegs false acc segs, goodSeg s := by
  intro segs
  induction segs with
  | nil =>
    intro acc _ hacc s hs
    rw [processSegs_nil] at hs
    exact hacc s (List.mem_reverse.mp hs)
  | cons t rest ih =>
    intro acc hseg hacc s hs
    have hrest : ∀ s ∈ rest, '/' ∉ s := fun s h => hseg s (List.mem_cons_of_mem _ h)
    by_cases h1 : t = [] ∨ t = ['.']
    · rw [processSegs_cons_eq, if_pos h1] at hs
      exact ih acc hrest hacc s hs
    · by_cases h2 : t = ['.', '.']
      · subst h2
        cases acc with
        | nil =>
          rw [processSegs_cons_eq, if_neg h1, if_pos rfl] at hs
          have hs2 : s ∈ processSegs false [] rest := hs
          exact ih [] hrest (by intro x hx; cases hx) s hs2
        | cons a acc2 =>
          have ha : goodSeg a := hacc a (List.mem_cons_self _ _)
          rw [processSegs_ddot_pop false a acc2 rest ha.2.2.1] at hs
          exact ih acc2 hrest (fun x hx => hacc x (List.mem_cons_of_mem _ hx)) s hs
      · rw [processSegs_push false acc t rest h1 h2] at hs
        refine ih (t :: acc) hrest ?_ s hs
        intro x hx
        rcases List.mem_cons.mp hx with h0 | h0
        · rw [h0]
          exact ⟨fun h => h1 (Or.inl h), fun h => h1 (Or.inr h), h2,
            hseg t (List.mem_cons_self _ _)⟩
        · exact hacc x h0

theorem processSegs_keep : ∀ (segs acc : List Str) (b : Bool),
    (∀ s ∈ segs, goodSeg s) → processSegs b acc segs = acc.reverse ++ segs := by
  intro segs
  induction segs with
  | nil => intro acc b _; rw [processSegs_nil]; simp
  | cons t rest ih =>
    intro acc b hg
    have ht : goodSeg t := hg t (List.mem_cons_self _ _)
    rw [processSegs_push b acc t rest (fun h => h.elim ht.1 ht.2.1) ht.2.2.1,
      ih (t :: acc) b (fun s h => hg s (List.mem_cons_of_mem _ h))]
    simp

theorem processSegs_keep_trail : ∀ (segs acc : List Str) (b : Bool),
    (∀ s ∈ segs, goodSeg s) → processSegs b acc (segs ++ [[]]) = acc.reverse ++ segs := by
  intro segs
  induction segs with
  | nil =>
    intro acc b _
    rw [List.nil_append, processSegs_cons_eq, if_pos (Or.inl rfl), processSegs_nil]
    simp
  | cons t rest ih =>
    intro acc b hg
    have ht : goodSeg t := hg t (List.mem_cons_self _ _)
    rw [List.cons_append,
      processSegs_push b acc t (rest ++ [[]]) (fun h => h.elim ht.1 ht.2.1) ht.2.2.1,
      ih (t :: acc) b (fun s h => hg s (List.mem_cons_of_mem _ h))]
    simp

theorem isAbsolute_append (p q : Str) (h : isAbsolute p = true) :
    isAbsolute (p ++ q) = true := by
  cases p with
  | nil => simp [isAbsolute] at h
  | cons c l => simpa [isAbsolute] using h

theorem normalize_slash : normalize ['/'] = ['/'] := by decide

theorem ne_nil_of_isAbsolute (p : Str) (h : isAbsolute p = true) : p ≠ [] := by
  intro h0
  rw [h0] at h
  simp [isAbsolute] at h

theorem norm_abs_of_good (segs : List Str) (hne : segs ≠ [])
    (hg : ∀ s ∈ segs, goodSeg s) :
    normalize ('/' :: joinSep '/' segs) = '/' :: joinSep '/' segs := by
  have hbody : joinSep '/' segs ≠ [] :=
    joinSep_ne_nil '/' segs hne (fun s h => (hg s h).1)
  have hfree : ∀ s ∈ segs, '/' ∉ s := fun s h => (hg s h).2.2.2
  have hsplit : splitChar '/' ('/' :: joinSep '/' segs) = [] :: segs := by
    rw [splitChar_sep_cons, splitChar_joinSep '/' segs hne hfree]
  have hproc : processSegs false [] ([] :: segs) = segs := by
    rw [processSegs_cons_eq, if_pos (Or.inl rfl)]
    exact processSegs_keep segs [] false hg
  have htrail : endsWithSlash ('/' :: joinSep '/' segs) = false := by
    unfold endsWithSlash
    have h2 : '/' :: joinSep '/' segs = ['/'] ++ joinSep '/' segs := rfl
    rw [h2, List.getLast?_append_of_ne_nil _ hbody]
    cases hl : (joinSep '/' segs).getLast? with
    | none => rfl
    | some a =>
      have := joinSep_getLast_ne '/' segs hne
        (fun s h => ⟨(hg s h).1, (hg s h).2.2.2⟩) a hl
      simp [this]
  have habs : isAbsolute ('/' :: joinSep '/' segs) = true := by simp [isAbsolute]
  simp only [normalize, if_neg (List.cons_ne_nil '/' (joinSep '/' segs)), habs, htrail,
    Bool.not_true, hsplit, hproc, if_neg hbody, Bool.false_eq_true, if_false, if_true]

theorem norm_abs_trail_of_good (segs : List Str) (hne : segs ≠ [])
    (hg : ∀ s ∈ segs, goodSeg s) :
    normalize ('/' :: (joinSep '/' segs ++ ['/'])) =
      '/' :: (joinSep '/' segs ++ ['/']) := by
  have hbody : joinSep '/' segs ≠ [] :=
    joinSep_ne_nil '/' segs hne (fun s h => (hg s h).1)
  have hbody2 : joinSep '/' segs ++ ['/'] ≠ [] := by simp
  have hfree : ∀ s ∈ segs ++ [[]], '/' ∉ s := by
    intro s hs
    rcases List.mem_append.mp hs with h | h
    · exact (hg s h).2.2.2
    · simp at h
      simp [h]
  have hsplit : splitChar '/' ('/' :: (joinSep '/' segs ++ ['/'])) =
      [] :: (segs ++ [[]]) := by
    rw [splitChar_sep_cons]
    rw [show joinSep '/' segs ++ ['/'] = joinSep '/' (segs ++ [[]]) from
      (joinSep_snoc_empty '/' segs hne).symm]
    rw [splitChar_joinSep '/' (segs ++ [[]]) (by simp) hfree]
  have hproc : processSegs false [] ([] :: (segs ++ [[]])) = segs := by
    rw [processSegs_cons_eq, if_pos (Or.inl rfl)]
    exact processSegs_keep_trail segs [] false hg
  have htrail : endsWithSlash ('/' :: (joinSep '/' segs ++ ['/'])) = true := by
    unfold endsWithSlash
    have h2 : '/' :: (joinSep '/' segs ++ ['/']) =
        ('/' :: joinSep '/' segs) ++ ['/'] := by simp
    rw [h2, List.getLast?_append_of_ne_nil _ (List.cons_ne_nil '/' [])]
    rfl
  have habs : isAbsolute ('/' :: (joinSep '/' segs ++ ['/'])) = true := by
    simp [isAbsolute]
  simp only [normalize, if_neg (List.cons_ne_nil '/' (joinSep '/' segs ++ ['/'])), habs,
    htrail, Bool.not_true, hsplit, hproc, if_neg hbody, if_true]

theorem normalize_abs_eq (p : Str) (h : isAbsolute p = true) :
    normalize p =
      (if joinSep '/' (processSegs false [] (splitChar '/' p)) = [] then ['/']
       else if endsWithSlash p = true then
         '/' :: (joinSep '/' (processSegs false [] (splitChar '/' p)) ++ ['/'])
       else '/' :: joinSep '/' (processSegs false [] (splitChar '/' p))) := by
  have hp : p ≠ [] := ne_nil_of_isAbsolute p h
  simp only [normalize, if_neg hp, h, Bool.not_true]
  by_cases hbody : joinSep '/' (processSegs false [] (splitChar '/' p)) = [] <;>
    by_cases htr : endsWithSlash p = true <;>
      simp [hbody, htr]

theorem isAbsolute_normalize (p : Str) (h : isAbsolute p = true) :
    isAbsolute (normalize p) = true := by
  rw [normalize_abs_eq p h]
  by_cases hbody : joinSep '/' (processSegs false [] (splitChar '/' p)) = [] <;>
    by_cases htr : endsWithSlash p = true <;>
      simp [hbody, htr, isAbsolute]

theorem normalize_idem_abs (p : Str) (h : isAbsolute p = true) :
    normalize (normalize p) = normalize p := by
  have hgood : ∀ s ∈ processSegs false [] (splitChar '/' p), goodSeg s :=
    processSegs_good (splitChar '/' p) [] (splitChar_no_sep '/' p)
      (fun x hx => absurd hx (List.not_mem_nil x))
  rw [normalize_abs_eq p h]
  by_cases hbody : joinSep '/' (processSegs false [] (splitChar '/' p)) = []
  · rw [if_pos hbody]
    exact normalize_slash
  · have hne : processSegs false [] (splitChar '/' p) ≠ [] := by
      intro h0
      rw [h0] at hbody
      exact hbody rfl
    rw [if_neg hbody]
    by_cases htr : endsWithSlash p = true
    · rw [if_pos htr]
      exact norm_abs_trail_of_good _ hne hgood
    · rw [if_neg htr]
      exact norm_abs_of_good _ hne hgood

theorem resolve2_abs_and_norm (cwd base p : Str) (hb : isAbsolute base = true) :
    isAbsolute (resolve2 cwd base p) = true ∧
      normalize (resolve2 cwd base p) = resolve2 cwd base p := by
  have hbase_ne : base ≠ [] := ne_nil_of_isAbsolute base hb
  have habs : isAbsolute
      (if isAbsolute p then p ++ ['/']
       else if base = [] then cwd ++ '/' :: (p ++ ['/'])
       else if isAbsolute base then base ++ '/' :: (p ++ ['/'])
       else cwd ++ '/' :: (base ++ '/' :: (p ++ ['/']))) = true := by
    by_cases hp : isAbsolute p = true
    · rw [if_pos hp]
      exact isAbsolute_append p ['/'] hp
    · rw [if_neg (by simpa using hp), if_neg hbase_ne, if_pos hb]
      exact isAbsolute_append base _ hb
  have hres : resolve2 cwd base p =
      (if joinSep '/' (processSegs false [] (splitChar '/'
          (if isAbsolute p then p ++ ['/']
           else if base = [] then cwd ++ '/' :: (p ++ ['/'])
           else if isAbsolute base then base ++ '/' :: (p ++ ['/'])
           else cwd ++ '/' :: (base ++ '/' :: (p ++ ['/']))))) = [] then ['/']
       else '/' :: joinSep '/' (processSegs false [] (splitChar '/'
          (if isAbsolute p then p ++ ['/']
           else if base = [] then cwd ++ '/' :: (p ++ ['/'])
           else if isAbsolute base then base ++ '/' :: (p ++ ['/'])
           else cwd ++ '/' :: (base ++ '/' :: (p ++ ['/'])))))) := by
    simp only [resolve2, habs, Bool.not_true, if_true]
  have hgood : ∀ s ∈ processSegs false [] (splitChar '/'
      (if isAbsolute p then p ++ ['/']
       else if base = [] then cwd ++ '/' :: (p ++ ['/'])
       else if isAbsolute base then base ++ '/' :: (p ++ ['/'])
       else cwd ++ '/' :: (base ++ '/' :: (p ++ ['/'])))), goodSeg s :=
    processSegs_good _ [] (splitChar_no_sep '/' _)
      (fun x hx => absurd hx (List.not_mem_nil x))
  rw [hres]
  by_cases hbody : joinSep '/' (processSegs false [] (splitChar '/'
      (if isAbsolute p then p ++ ['/']
       else if base = [] then cwd ++ '/' :: (p ++ ['/'])
       else if isAbsolute base then base ++ '/' :: (p ++ ['/'])
       else cwd ++ '/' :: (base ++ '/' :: (p ++ ['/']))))) = []
  · rw [if_pos hbody]
    exact ⟨by simp [isAbsolute], normalize_slash⟩
  · rw [if_neg hbody]
    have hne : processSegs false [] (splitChar '/'
        (if isAbsolute p then p ++ ['/']
         else if base = [] then cwd ++ '/' :: (p ++ ['/'])
         else if isAbsolute base then base ++ '/' :: (p ++ ['/'])
         else cwd ++ '/' :: (base ++ '/' :: (p ++ ['/']))))  ≠ [] := by
      intro h0
      rw [h0] at hbody
      exact hbody rfl
    exact ⟨by simp [isAbsolute], norm_abs_of_good _ hne hgood⟩

theorem join2_abs_and_norm (a b : Str) (ha : isAbsolute a = true) :
    isAbsolute (join2 a b) = true ∧ normalize (join2 a b) = join2 a b := by
  have hane : a ≠ [] := ne_nil_of_isAbsolute a ha
  have hjabs : isAbsolute
      (if a = [] then b else if b = [] then a else a ++ '/' :: b) = true := by
    rw [if_neg hane]
    by_cases hbnil : b = []
    · rw [if_pos hbnil]
      exact ha
    · rw [if_neg hbnil]
      exact isAbsolute_append a _ ha
  have hjne : (if a = [] then b else if b = [] then a else a ++ '/' :: b) ≠ [] :=
    ne_nil_of_isAbsolute _ hjabs
  have hj : join2 a b =
      normalize (if a = [] then b else if b = [] then a else a ++ '/' :: b) := by
    simp only [join2, if_neg hjne]
  rw [hj]
  exact ⟨isAbsolute_normalize _ hjabs, normalize_idem_abs _ hjabs⟩

theorem normalizePath_abs_norm (home cwd p bp : Str)
    (hb : isAbsolute bp = true) (hh : isAbsolute home = true)
    (hn : normalize home = home) :
    isAbsolute (normalizePath home cwd p bp) = true ∧
      normalize (normalizePath home cwd p bp) = normalizePath home cwd p bp := by
  unfold normalizePath
  by_cases h1 : (['~', '/'].isPrefixOf (jsTrim p) || jsTrim p = ['~']) = true
  · simp only [h1, if_true]
    by_cases h2 : jsTrim p = ['~']
    · rw [if_pos h2]
      exact ⟨hh, hn⟩
    · rw [if_neg h2]
      exact join2_abs_and_norm home _ hh
  · simp only [h1, Bool.false_eq_true, if_false]
    by_cases h2 : isAbsolute (jsTrim p) = true
    · simp only [h2, if_true]
      exact ⟨isAbsolute_normalize _ h2, normalize_idem_abs _ h2⟩
    · simp only [h2, Bool.false_eq_true, if_false]
      exact resolve2_abs_and_norm cwd bp (jsTrim p) hb

theorem parseIncludeLine_resolved (home cwd l bp : Str) (n : Nat) (d : IncludeDirective)
    (h : parseIncludeLine home cwd l n bp = some d) :
    d.resolvedPath = normalizePath home cwd d.rawPath bp := by
  unfold parseIncludeLine at h
  cases hm : matchIncludeDirective l with
  | none => rw [hm] at h; cases h
  | some cap =>
    rw [hm] at h
    by_cases ht : jsTrim cap = []
    · simp [ht] at h
    · simp [ht] at h
      rw [← h]

/-! ### Claim theorems: the Directive Scanner -/

/-- C9: the scanner is deterministic and side-effect-free; two calls of
`parseIncludeDirectives` on the same content and base path give structurally
equal results, and `originalContent` is the input, verbatim.  In the
embedding the scanner is a pure function, so determinism is definitional,
and `originalContent` is returned untouched. -/
theorem scan_pure_and_preserves_content :
    ∀ home cwd content basePath : Str,
      parseIncludeDirectives home cwd content basePath =
        parseIncludeDirectives home cwd content basePath ∧
      (parseIncludeDirectives home cwd content basePath).originalContent = content :=
  fun _ _ _ _ => ⟨rfl, rfl⟩

/-- C10: `parseIncludeLine` succeeds exactly when `extractIncludePath`
succeeds, and the `rawPath` of the produced directive is the extracted path
(the trimmed remainder of the line after the keyword).  Stated as a single
equation on `Option`: mapping `rawPath` over the parse result gives the
extraction result, for every line, line number and base path. -/
theorem parseIncludeLine_agrees_with_extractIncludePath :
    ∀ home cwd line basePath : Str, ∀ lineNumber : Nat,
      (parseIncludeLine home cwd line lineNumber basePath).map IncludeDirective.rawPath =
        extractIncludePath line := by
  intro home cwd line bp n
  unfold parseIncludeLine extractIncludePath
  cases matchIncludeDirective line with
  | none => rfl
  | some cap =>
    by_cases h : jsTrim cap = [] <;> simp [h]

/-- C6: a line whose first non-whitespace text does not start with the
lowercase keyword `@include` is never recognized as a directive; in
particular the uppercase form, a keyword occurring mid-line, and the three
legacy single-at forms are all rejected. -/
theorem keyword_must_lead_line :
    (∀ line : Str, isIncludeDirective line = true →
      includeKeyword.isPrefixOf (line.dropWhile jsWs) = true) ∧
    isIncludeDirective "@INCLUDE ./f.md".toList = false ∧
    isIncludeDirective "text @include ./f.md".toList = false ∧
    isIncludeDirective "@./file.md".toList = false ∧
    isIncludeDirective "@~/config.md".toList = false ∧
    isIncludeDirective "@/absolute/path.md".toList = false := by
  refine ⟨?_, by decide, by decide, by decide, by decide, by decide⟩
  intro line h
  by_cases hp : includeKeyword.isPrefixOf (line.dropWhile jsWs) = true
  · exact hp
  · exfalso
    unfold isIncludeDirective matchIncludeDirective at h
    rw [Bool.not_eq_true] at hp
    simp [hp] at h

/-- Witness for C6: the positive side of the universal statement at the
concrete line `"@include ./f.md"`. -/
theorem keyword_must_lead_line_witness :
    includeKeyword.isPrefixOf (("@include ./f.md".toList).dropWhile jsWs) = true :=
  keyword_must_lead_line.1 ("@include ./f.md".toList) (by decide)

/-- C3: for every content and base path, `parseIncludeDirectives` returns
one directive per line that matches the directive pattern with a non-empty
trimmed path (split on line feeds), in strictly increasing document line
order, and each directive's 1-indexed `lineNumber` addresses its own
original line, from which `parseIncludeLine` reproduces the directive. -/
theorem scan_finds_all_directives_in_order :
    ∀ home cwd content basePath : Str,
      (parseIncludeDirectives home cwd content basePath).directives.length =
        ((splitChar '\n' content).filter directiveLine).length ∧
      List.Pairwise (fun a b => a < b)
        ((parseIncludeDirectives home cwd content basePath).directives.map
          IncludeDirective.lineNumber) ∧
      ∀ d ∈ (parseIncludeDirectives home cwd content basePath).directives,
        1 ≤ d.lineNumber ∧
        (splitChar '\n' content).get? (d.lineNumber - 1) = some d.originalLine ∧
        parseIncludeLine home cwd d.originalLine d.lineNumber basePath = some d := by
  intro home cwd content bp
  refine ⟨scanLines_fst_length home cwd bp _ 0, scanLines_fst_pairwise home cwd bp _ 0, ?_⟩
  intro d hd
  obtain ⟨j, hj1, hj2, hj3⟩ :=
    scanLines_fst_mem home cwd bp (splitChar '\n' content) 0 d hd
  refine ⟨by omega, ?_, hj3⟩
  have : d.lineNumber - 1 = j := by omega
  rw [this]
  exact hj2

/-- Witness for C3: the per-directive part of the statement, instantiated at
the single directive of `"@include ./a.md"`. -/
theorem scan_finds_all_directives_in_order_witness :
    1 ≤ (⟨"@include ./a.md".toList, 1, "./a.md".toList, "/a.md".toList⟩ :
        IncludeDirective).lineNumber ∧
      (splitChar '\n' "@include ./a.md".toList).get?
        ((⟨"@include ./a.md".toList, 1, "./a.md".toList, "/a.md".toList⟩ :
          IncludeDirective).lineNumber - 1) =
        some (⟨"@include ./a.md".toList, 1, "./a.md".toList, "/a.md".toList⟩ :
          IncludeDirective).originalLine ∧
      parseIncludeLine [] []
          (⟨"@include ./a.md".toList, 1, "./a.md".toList, "/a.md".toList⟩ :
            IncludeDirective).originalLine
          (⟨"@include ./a.md".toList, 1, "./a.md".toList, "/a.md".toList⟩ :
            IncludeDirective).lineNumber [] =
        some ⟨"@include ./a.md".toList, 1, "./a.md".toList, "/a.md".toList⟩ :=
  (scan_finds_all_directives_in_order [] [] ("@include ./a.md".toList) []).2.2
    ⟨"@include ./a.md".toList, 1, "./a.md".toList, "/a.md".toList⟩ (by decide)

/-- C7: no line number carries both a directive and a scan error; each line
produces at most one of the two. -/
theorem line_yields_at_most_one_kind :
    ∀ home cwd content basePath : Str, ∀ n : Nat,
      n ∈ (parseIncludeDirectives home cwd content basePath).errors.map
          ParseError.lineNumber →
      n ∉ (parseIncludeDirectives home cwd content basePath).directives.map
          IncludeDirective.lineNumber := by
  intro home cwd content bp n he hd
  obtain ⟨e, hee, hen⟩ := List.mem_map.mp he
  obtain ⟨d, hde, hdn⟩ := List.mem_map.mp hd
  obtain ⟨j, hj1, hj2, hj3, _⟩ :=
    scanLines_snd_mem home cwd bp (splitChar '\n' content) 0 e hee
  obtain ⟨k, hk1, hk2, hk3⟩ :=
    scanLines_fst_mem home cwd bp (splitChar '\n' content) 0 d hde
  have hjk : j = k := by omega
  subst hjk
  rw [hj2] at hk2
  have hline : e.line = d.originalLine := by
    injection hk2
  have hdir : directiveLine d.originalLine = true := by
    rw [← parseIncludeLine_isSome home cwd d.originalLine bp d.lineNumber, hk3]
    rfl
  rw [← hline] at hdir
  rw [scanError_not_directive e.line hj3] at hdir
  cases hdir

/-- Witness for C7: on `"@include\n@include ./a.md"` line 1 carries a scan
error, and the theorem rules it out of the directive line numbers. -/
theorem line_yields_at_most_one_kind_witness :
    1 ∉ (parseIncludeDirectives [] [] "@include\n@include ./a.md".toList []).directives.map
        IncludeDirective.lineNumber :=
  line_yields_at_most_one_kind [] [] ("@include\n@include ./a.md".toList) [] 1 (by decide)

theorem scanLines_snd_produce (home cwd bp : Str) :
    ∀ (ls : List Str) (i j : Nat) (l : Str),
      ls.get? j = some l → scanErrorLine l = true →
      (⟨i + j + 1, l, emptyPathMessage⟩ : ParseError) ∈ (scanLines home cwd bp i ls).2 := by
  intro ls
  induction ls with
  | nil => intro i j l h; simp at h
  | cons l0 ls ih =>
    intro i j l hg he
    rw [scanLines_cons]
    cases j with
    | zero =>
      have h0 : l0 = l := by simpa using hg
      cases hp : parseIncludeLine home cwd l0 (i + 1) bp with
      | some d =>
        exfalso
        have hs := parseIncludeLine_isSome home cwd l0 bp (i + 1)
        rw [hp, h0, scanError_not_directive l he] at hs
        simp at hs
      | none =>
        simp only [hp]
        have he0 : scanErrorLine l0 = true := by rw [h0]; exact he
        rw [if_pos he0, h0]
        exact List.mem_cons_self _ _
    | succ j2 =>
      have hg2 : ls.get? j2 = some l := by simpa using hg
      have hmem := ih (i + 1) j2 l hg2 he
      have harith : i + (j2 + 1) + 1 = i + 1 + j2 + 1 := by omega
      rw [harith]
      cases hp : parseIncludeLine home cwd l0 (i + 1) bp with
      | some d => simp only [hp]; exact hmem
      | none =>
        simp only [hp]
        by_cases he0 : scanErrorLine l0 = true
        · rw [if_pos he0]
          exact List.mem_cons_of_mem _ hmem
        · rw [if_neg he0]
          exact hmem

/-- Counterexample for C4: on the input named by the claim, the produced
scan errors do not have the message `"path cannot be empty"`; the message
the code stores is `"Invalid @include directive: path cannot be empty"`,
which merely contains the claimed phrase. -/
theorem scan_error_message_is_not_the_bare_phrase :
    ((parseIncludeDirectives [] [] "@include\n@include   \n@include ./ok.md".toList
        []).errors.map ParseError.message = [emptyPathMessage, emptyPathMessage]) ∧
      emptyPathMessage ≠ "path cannot be empty".toList := by
  exact ⟨by decide, by decide⟩

/-- C4 (amended): a line matching the directive prefix syntax with an empty
or whitespace-only path token, and a bare-keyword line, each produce a
`ScanError` for that line whose message contains `"path cannot be empty"`,
and never a directive; the input `"@include\n@include   \n@include ./ok.md"`
yields exactly two scan errors (lines 1 and 2) and one directive (line 3). -/
theorem scan_empty_path_error_production :
    (∀ home cwd content basePath : Str,
      (∀ e ∈ (parseIncludeDirectives home cwd content basePath).errors,
        "path cannot be empty".toList <:+: e.message) ∧
      (∀ j l, (splitChar '\n' content).get? j = some l → scanErrorLine l = true →
        (⟨j + 1, l, emptyPathMessage⟩ : ParseError) ∈
          (parseIncludeDirectives home cwd content basePath).errors) ∧
      (∀ d ∈ (parseIncludeDirectives home cwd content basePath).directives,
        scanErrorLine d.originalLine = false)) ∧
    ((parseIncludeDirectives [] [] "@include\n@include   \n@include ./ok.md".toList
        []).errors.map ParseError.lineNumber = [1, 2]) ∧
    ((parseIncludeDirectives [] [] "@include\n@include   \n@include ./ok.md".toList
        []).directives.map IncludeDirective.lineNumber = [3]) := by
  refine ⟨?_, by decide, by decide⟩
  intro home cwd content bp
  refine ⟨?_, ?_, ?_⟩
  · intro e he
    obtain ⟨_, _, _, _, hmsg⟩ :=
      scanLines_snd_mem home cwd bp (splitChar '\n' content) 0 e he
    rw [hmsg]
    decide
  · intro j l hg he
    have hmem := scanLines_snd_produce home cwd bp (splitChar '\n' content) 0 j l hg he
    simpa [parseIncludeDirectives] using hmem
  · intro d hd
    obtain ⟨j, _, _, hp⟩ :=
      scanLines_fst_mem home cwd bp (splitChar '\n' content) 0 d hd
    by_cases he : scanErrorLine d.originalLine = true
    · exfalso
      have hs := parseIncludeLine_isSome home cwd d.originalLine bp d.lineNumber
      rw [hp, scanError_not_directive d.originalLine he] at hs
      simp at hs
    · exact Bool.not_eq_true _ |>.mp he

/-- Witness for C4 (amended): the error-production part at the concrete
content `"@include\nx"`, line 1. -/
theorem scan_empty_path_error_production_witness :
    (⟨1, "@include".toList, emptyPathMessage⟩ : ParseError) ∈
      (parseIncludeDirectives [] [] "@include\nx".toList []).errors :=
  (scan_empty_path_error_production.1 [] [] ("@include\nx".toList) []).2.1 0
    ("@include".toList) (by decide) (by decide)

/-- C5: `normalizePath` follows its specified case analysis: the input is
trimmed first; the bare home indicator gives the home directory and
`"~/x"` gives `join(home, "x")`; an already-absolute path is normalized
without re-basing (in particular `"/a//b/../c"` gives `"/a/c"`); any other
path is resolved relative to `basePath` with `.`/`..` segments collapsed
(`resolve2`, the embedding of `path.resolve`). -/
theorem normalizePath_case_analysis :
    ∀ home cwd basePath p : Str,
      normalizePath home cwd p basePath = normalizePath home cwd (jsTrim p) basePath ∧
      normalizePath home cwd ("~".toList) basePath = home ∧
      normalizePath home cwd ("~/x".toList) basePath = join2 home ("x".toList) ∧
      normalizePath home cwd ("/a//b/../c".toList) basePath = "/a/c".toList ∧
      (isAbsolute (jsTrim p) = true →
        normalizePath home cwd p basePath = normalize (jsTrim p)) ∧
      ((['~', '/'].isPrefixOf (jsTrim p) || jsTrim p = ['~']) = false →
        isAbsolute (jsTrim p) = false →
        normalizePath home cwd p basePath = resolve2 cwd basePath (jsTrim p)) := by
  intro home cwd bp p
  refine ⟨?_, rfl, rfl, rfl, ?_, ?_⟩
  · unfold normalizePath
    rw [jsTrim_idem]
  · intro h
    cases ht : jsTrim p with
    | nil => rw [ht] at h; simp [isAbsolute] at h
    | cons c rest =>
      rw [ht] at h
      have hc : c = '/' := by
        have := h
        unfold isAbsolute at this
        simpa using this
      subst hc
      unfold normalizePath
      rw [ht]
      simp [List.isPrefixOf, isAbsolute]
  · intro h1 h2
    unfold normalizePath
    simp [h1, h2]

/-- Witness for C5: the absolute-path case at `"/x/y.md"`. -/
theorem normalizePath_case_analysis_witness :
    isAbsolute (jsTrim "/x/y.md".toList) = true ∧
      normalizePath [] [] "/x/y.md".toList [] = normalize (jsTrim "/x/y.md".toList) :=
  ⟨by decide, (normalizePath_case_analysis [] [] [] ("/x/y.md".toList)).2.2.2.2.1 (by decide)⟩

/-- Counterexample for C8: with the absolute (but not separator-normalized)
home directory `"/x//y"` and absolute base path `"/"`, the line
`"@include ~"` produces a directive whose `resolvedPath` is `"/x//y"`
verbatim — an absolute path that is not OS-normalized (normalizing it
changes it), because the bare-tilde branch of `normalizePath` returns
`os.homedir()` without normalizing it. -/
theorem tilde_keeps_home_verbatim :
    parseIncludeLine "/x//y".toList [] "@include ~".toList 1 "/".toList =
      some ⟨"@include ~".toList, 1, ['~'], "/x//y".toList⟩ ∧
    isAbsolute "/x//y".toList = true ∧ isAbsolute "/".toList = true ∧
    normalize "/x//y".toList ≠ "/x//y".toList := by decide

/-- C8 (amended): when the base path and the home directory are absolute and
the home directory is itself OS-normalized, every directive the scanner
returns (through `parseIncludeLine` or `parseIncludeDirectives`) has a
`resolvedPath` that is absolute and OS-normalized (a fixed point of
`normalize`). -/
theorem resolved_paths_absolute_and_normalized :
    ∀ home cwd basePath : Str,
      isAbsolute basePath = true → isAbsolute home = true → normalize home = home →
      (∀ line : Str, ∀ n : Nat, ∀ d : IncludeDirective,
        parseIncludeLine home cwd line n basePath = some d →
        isAbsolute d.resolvedPath = true ∧ normalize d.resolvedPath = d.resolvedPath) ∧
      (∀ content : Str,
        ∀ d ∈ (parseIncludeDirectives home cwd content basePath).directives,
        isAbsolute d.resolvedPath = true ∧ normalize d.resolvedPath = d.resolvedPath) := by
  intro home cwd bp hb hh hn
  have hline : ∀ line n d, parseIncludeLine home cwd line n bp = some d →
      isAbsolute d.resolvedPath = true ∧ normalize d.resolvedPath = d.resolvedPath := by
    intro line n d h
    rw [parseIncludeLine_resolved home cwd line bp n d h]
    exact normalizePath_abs_norm home cwd d.rawPath bp hb hh hn
  refine ⟨hline, ?_⟩
  intro content d hd
  obtain ⟨j, _, _, hp⟩ := scanLines_fst_mem home cwd bp (splitChar '\n' content) 0 d hd
  exact hline d.originalLine d.lineNumber d hp

/-- Witness for C8 (amended): the single directive of `"@include ./a.md"`
under home `"/home/user"` and base `"/project/docs"`. -/
theorem resolved_paths_absolute_and_normalized_witness :
    isAbsolute (⟨"@include ./a.md".toList, 1, "./a.md".toList,
        "/project/docs/a.md".toList⟩ : IncludeDirective).resolvedPath = true ∧
      normalize (⟨"@include ./a.md".toList, 1, "./a.md".toList,
          "/project/docs/a.md".toList⟩ : IncludeDirective).resolvedPath =
        (⟨"@include ./a.md".toList, 1, "./a.md".toList,
          "/project/docs/a.md".toList⟩ : IncludeDirective).resolvedPath :=
  (resolved_paths_absolute_and_normalized "/home/user".toList [] "/project/docs".toList
    (by decide) (by decide) (by decide)).1 "@include ./a.md".toList 1
    ⟨"@include ./a.md".toList, 1, "./a.md".toList, "/project/docs/a.md".toList⟩
    (by decide)

/-! ### Lemmas about the Inclusion Resolver model -/

theorem resolveGo_zero (rf : Str → ReadRes) (home cwd : Str) (anc : List Str)
    (content bp : Str) :
    resolveGo rf home cwd 0 anc content bp =
      ⟨joinSep '\n' (spliceLines
          (handleDirectives rf none anc
            (parseIncludeDirectives home cwd content bp).directives).2.2 0
          (splitChar '\n' content)),
        (handleDirectives rf none anc
          (parseIncludeDirectives home cwd content bp).directives).1,
        (parseIncludeDirectives home cwd content bp).errors.map (parseLevelError bp) ++
          (handleDirectives rf none anc
            (parseIncludeDirectives home cwd content bp).directives).2.1⟩ := rfl

theorem resolveGo_succ (rf : Str → ReadRes) (home cwd : Str) (f : Nat) (anc : List Str)
    (content bp : Str) :
    resolveGo rf home cwd (f + 1) anc content bp =
      ⟨joinSep '\n' (spliceLines
          (handleDirectives rf
            (some (fun p c => resolveGo rf home cwd f (p :: anc) c (dirname p))) anc
            (parseIncludeDirectives home cwd content bp).directives).2.2 0
          (splitChar '\n' content)),
        (handleDirectives rf
          (some (fun p c => resolveGo rf home cwd f (p :: anc) c (dirname p))) anc
          (parseIncludeDirectives home cwd content bp).directives).1,
        (parseIncludeDirectives home cwd content bp).errors.map (parseLevelError bp) ++
          (handleDirectives rf
            (some (fun p c => resolveGo rf home cwd f (p :: anc) c (dirname p))) anc
            (parseIncludeDirectives home cwd content bp).directives).2.1⟩ := rfl

theorem handleDirectives_nil (rf : Str → ReadRes)
    (child : Option (Str → Str → ProcessResult)) (anc : List Str) :
    handleDirectives rf child anc [] = ([], [], []) := rfl

theorem handleDirectives_cons (rf : Str → ReadRes)
    (child : Option (Str → Str → ProcessResult)) (anc : List Str)
    (d : IncludeDirective) (ds : List IncludeDirective) :
    handleDirectives rf child anc (d :: ds) =
      ((handleDirective rf child anc d).1 ++ (handleDirectives rf child anc ds).1,
       (handleDirective rf child anc d).2.1 ++ (handleDirectives rf child anc ds).2.1,
       (handleDirective rf child anc d).2.2 ++ (handleDirectives rf child anc ds).2.2) := rfl

theorem handleDirective_none (rf : Str → ReadRes) (anc : List Str)
    (d : IncludeDirective) :
    handleDirective rf none anc d = ([], [maxDepthError d], []) := rfl

theorem handleDirective_circ (rf : Str → ReadRes) (k : Str → Str → ProcessResult)
    (anc : List Str) (d : IncludeDirective) (h : d.resolvedPath ∈ anc) :
    handleDirective rf (some k) anc d = ([], [circularError d], []) := by
  simp only [handleDirective]
  rw [if_pos h]

theorem handleDirective_notFound (rf : Str → ReadRes) (k : Str → Str → ProcessResult)
    (anc : List Str) (d : IncludeDirective) (h1 : d.resolvedPath ∉ anc)
    (h2 : rf d.resolvedPath = ReadRes.notFound) :
    handleDirective rf (some k) anc d = ([], [notFoundError d], []) := by
  simp only [handleDirective]
  rw [if_neg h1, h2]

theorem handleDirective_failed (rf : Str → ReadRes) (k : Str → Str → ProcessResult)
    (anc : List Str) (d : IncludeDirective) (h1 : d.resolvedPath ∉ anc)
    (h2 : rf d.resolvedPath = ReadRes.failed) :
    handleDirective rf (some k) anc d = ([], [readFailError d], []) := by
  simp only [handleDirective]
  rw [if_neg h1, h2]

theorem handleDirective_ok (rf : Str → ReadRes) (k : Str → Str → ProcessResult)
    (anc : List Str) (d : IncludeDirective) (c : Str) (h1 : d.resolvedPath ∉ anc)
    (h2 : rf d.resolvedPath = ReadRes.ok c) :
    handleDirective rf (some k) anc d =
      (d.resolvedPath :: (k d.resolvedPath c).includedPaths,
       (k d.resolvedPath c).errors,
       [(d.lineNumber, (k d.resolvedPath c).content)]) := by
  simp only [handleDirective]
  rw [if_neg h1, h2]

theorem handleDirective_included_mem (rf : Str → ReadRes)
    (child : Option (Str → Str → ProcessResult)) (anc : List Str)
    (d : IncludeDirective) (q : Str)
    (h : q ∈ (handleDirective rf child anc d).1) :
    q = d.resolvedPath ∨
      ∃ k c, child = some k ∧ d.resolvedPath ∉ anc ∧
        rf d.resolvedPath = ReadRes.ok c ∧ q ∈ (k d.resolvedPath c).includedPaths := by
  cases child with
  | none => rw [handleDirective_none] at h; cases h
  | some k =>
    by_cases h1 : d.resolvedPath ∈ anc
    · rw [handleDirective_circ rf k anc d h1] at h
      cases h
    · cases h2 : rf d.resolvedPath with
      | ok c =>
        rw [handleDirective_ok rf k anc d c h1 h2] at h
        rcases List.mem_cons.mp h with h0 | h0
        · exact Or.inl h0
        · exact Or.inr ⟨k, c, rfl, h1, rfl, h0⟩
      | notFound => rw [handleDirective_notFound rf k anc d h1 h2] at h; cases h
      | failed => rw [handleDirective_failed rf k anc d h1 h2] at h; cases h

theorem handleDirectives_included_mem (rf : Str → ReadRes)
    (child : Option (Str → Str → ProcessResult)) (anc : List Str) :
    ∀ (ds : List IncludeDirective) (q : Str),
      q ∈ (handleDirectives rf child anc ds).1 →
      ∃ d ∈ ds, q = d.resolvedPath ∨
        ∃ k c, child = some k ∧ d.resolvedPath ∉ anc ∧
          rf d.resolvedPath = ReadRes.ok c ∧ q ∈ (k d.resolvedPath c).includedPaths := by
  intro ds
  induction ds with
  | nil => intro q h; rw [handleDirectives_nil] at h; cases h
  | cons d ds ih =>
    intro q h
    rw [handleDirectives_cons] at h
    rcases List.mem_append.mp h with h0 | h0
    · exact ⟨d, List.mem_cons_self _ _,
        handleDirective_included_mem rf child anc d q h0⟩
    · obtain ⟨d2, hd2, hq⟩ := ih q h0
      exact ⟨d2, List.mem_cons_of_mem _ hd2, hq⟩

theorem handleDirective_errors_mem (rf : Str → ReadRes)
    (child : Option (Str → Str → ProcessResult)) (anc : List Str)
    (d : IncludeDirective) (e : ProcessError)
    (h : e ∈ (handleDirective rf child anc d).2.1) :
    e = maxDepthError d ∨ (d.resolvedPath ∈ anc ∧ e = circularError d) ∨
      e = notFoundError d ∨ e = readFailError d ∨
      ∃ k c, child = some k ∧ d.resolvedPath ∉ anc ∧
        rf d.resolvedPath = ReadRes.ok c ∧ e ∈ (k d.resolvedPath c).errors := by
  cases child with
  | none =>
    rw [handleDirective_none] at h
    rcases List.mem_cons.mp h with h0 | h0
    · exact Or.inl h0
    · cases h0
  | some k =>
    by_cases h1 : d.resolvedPath ∈ anc
    · rw [handleDirective_circ rf k anc d h1] at h
      rcases List.mem_cons.mp h with h0 | h0
      · exact Or.inr (Or.inl ⟨h1, h0⟩)
      · cases h0
    · cases h2 : rf d.resolvedPath with
      | ok c =>
        rw [handleDirective_ok rf k anc d c h1 h2] at h
        exact Or.inr (Or.inr (Or.inr (Or.inr ⟨k, c, rfl, h1, rfl, h⟩)))
      | notFound =>
        rw [handleDirective_notFound rf k anc d h1 h2] at h
        rcases List.mem_cons.mp h with h0 | h0
        · exact Or.inr (Or.inr (Or.inl h0))
        · cases h0
      | failed =>
        rw [handleDirective_failed rf k anc d h1 h2] at h
        rcases List.mem_cons.mp h with h0 | h0
        · exact Or.inr (Or.inr (Or.inr (Or.inl h0)))
        · cases h0

theorem handleDirectives_errors_mem (rf : Str → ReadRes)
    (child : Option (Str → Str → ProcessResult)) (anc : List Str) :
    ∀ (ds : List IncludeDirective) (e : ProcessError),
      e ∈ (handleDirectives rf child anc ds).2.1 →
      ∃ d ∈ ds, e = maxDepthError d ∨ (d.resolvedPath ∈ anc ∧ e = circularError d) ∨
        e = notFoundError d ∨ e = readFailError d ∨
        ∃ k c, child = some k ∧ d.resolvedPath ∉ anc ∧
          rf d.resolvedPath = ReadRes.ok c ∧ e ∈ (k d.resolvedPath c).errors := by
  intro ds
  induction ds with
  | nil => intro e h; rw [handleDirectives_nil] at h; cases h
  | cons d ds ih =>
    intro e h
    rw [handleDirectives_cons] at h
    rcases List.mem_append.mp h with h0 | h0
    · exact ⟨d, List.mem_cons_self _ _,
        handleDirective_errors_mem rf child anc d e h0⟩
    · obtain ⟨d2, hd2, he⟩ := ih e h0
      exact ⟨d2, List.mem_cons_of_mem _ hd2, he⟩

theorem reach_of_mem (rf : Str → ReadRes) (home cwd content bp : Str) (q : Str)
    (h : q ∈ (parseIncludeDirectives home cwd content bp).directives.map
      IncludeDirective.resolvedPath) :
    ReachFromDoc rf home cwd content bp q :=
  ⟨q, h, Relation.ReflTransGen.refl⟩

theorem reach_lift (rf : Str → ReadRes) (home cwd content bp : Str)
    (d : IncludeDirective)
    (hd : d ∈ (parseIncludeDirectives home cwd content bp).directives)
    (c : Str) (hc : rf d.resolvedPath = ReadRes.ok c) (q : Str)
    (h : ReachFromDoc rf home cwd c (dirname d.resolvedPath) q) :
    ReachFromDoc rf home cwd content bp q := by
  obtain ⟨d0, hd0, hr⟩ := h
  exact ⟨d.resolvedPath, List.mem_map.mpr ⟨d, hd, rfl⟩,
    Relation.ReflTransGen.head ⟨c, hc, hd0⟩ hr⟩

theorem resolveGo_included_reachable (rf : Str → ReadRes) (home cwd : Str) :
    ∀ (fuel : Nat) (anc : List Str) (content bp : Str) (q : Str),
      q ∈ (resolveGo rf home cwd fuel anc content bp).includedPaths →
      ReachFromDoc rf home cwd content bp q := by
  intro fuel
  induction fuel with
  | zero =>
    intro anc content bp q h
    rw [resolveGo_zero] at h
    obtain ⟨d, hd, hq⟩ := handleDirectives_included_mem rf none anc _ q h
    rcases hq with h0 | ⟨k, c, hk, _⟩
    · exact reach_of_mem rf home cwd content bp q (List.mem_map.mpr ⟨d, hd, h0.symm⟩)
    · cases hk
  | succ f ih =>
    intro anc content bp q h
    rw [resolveGo_succ] at h
    obtain ⟨d, hd, hq⟩ := handleDirectives_included_mem rf _ anc _ q h
    rcases hq with h0 | ⟨k, c, hk, hanc, hc, hmem⟩
    · exact reach_of_mem rf home cwd content bp q (List.mem_map.mpr ⟨d, hd, h0.symm⟩)
    · injection hk with hk
      subst hk
      have hmem2 : q ∈ (resolveGo rf home cwd f (d.resolvedPath :: anc) c
          (dirname d.resolvedPath)).includedPaths := hmem
      exact reach_lift rf home cwd content bp d hd c hc q
        (ih (d.resolvedPath :: anc) c (dirname d.resolvedPath) q hmem2)

theorem resolveGo_no_circular (rf : Str → ReadRes) (home cwd : Str) :
    ∀ (fuel : Nat) (anc : List Str) (content bp : Str),
      (∀ a ∈ anc, ¬ ReachFromDoc rf home cwd content bp a) →
      (∀ q, ReachFromDoc rf home cwd content bp q →
        ¬ Relation.TransGen (Step rf home cwd) q q) →
      ∀ e ∈ (resolveGo rf home cwd fuel anc content bp).errors,
        e.type ≠ ProcessErrorType.circular_include := by
  intro fuel
  induction fuel with
  | zero =>
    intro anc content bp hanc hnc e he
    rw [resolveGo_zero] at he
    rcases List.mem_append.mp he with h0 | h0
    · obtain ⟨pe, _, rfl⟩ := List.mem_map.mp h0
      exact fun hx => ProcessErrorType.noConfusion hx
    · obtain ⟨d, hd, hq⟩ := handleDirectives_errors_mem rf none anc _ e h0
      rcases hq with rfl | ⟨hin, rfl⟩ | rfl | rfl | ⟨k, c, hk, _⟩
      · exact fun hx => ProcessErrorType.noConfusion hx
      · exact absurd (reach_of_mem rf home cwd content bp d.resolvedPath
          (List.mem_map.mpr ⟨d, hd, rfl⟩)) (hanc d.resolvedPath hin)
      · exact fun hx => ProcessErrorType.noConfusion hx
      · exact fun hx => ProcessErrorType.noConfusion hx
      · cases hk
  | succ f ih =>
    intro anc content bp hanc hnc e he
    rw [resolveGo_succ] at he
    rcases List.mem_append.mp he with h0 | h0
    · obtain ⟨pe, _, rfl⟩ := List.mem_map.mp h0
      exact fun hx => ProcessErrorType.noConfusion hx
    · obtain ⟨d, hd, hq⟩ := handleDirectives_errors_mem rf _ anc _ e h0
      rcases hq with rfl | ⟨hin, rfl⟩ | rfl | rfl | ⟨k, c, hk, hnin, hc, hmem⟩
      · exact fun hx => ProcessErrorType.noConfusion hx
      · exact absurd (reach_of_mem rf home cwd content bp d.resolvedPath
          (List.mem_map.mpr ⟨d, hd, rfl⟩)) (hanc d.resolvedPath hin)
      · exact fun hx => ProcessErrorType.noConfusion hx
      · exact fun hx => ProcessErrorType.noConfusion hx
      · injection hk with hk
        subst hk
        have hmem2 : e ∈ (resolveGo rf home cwd f (d.resolvedPath :: anc) c
            (dirname d.resolvedPath)).errors := hmem
        refine ih (d.resolvedPath :: anc) c (dirname d.resolvedPath) ?_ ?_ e hmem2
        · intro a ha hr
          rcases List.mem_cons.mp ha with rfl | ha2
          · obtain ⟨d0, hd0, hchain⟩ := hr
            have hcyc : Relation.TransGen (Step rf home cwd) d.resolvedPath
                d.resolvedPath :=
              Relation.TransGen.head' ⟨c, hc, hd0⟩ hchain
            exact hnc d.resolvedPath (reach_of_mem rf home cwd content bp d.resolvedPath
              (List.mem_map.mpr ⟨d, hd, rfl⟩)) hcyc
          · exact hanc a ha2 (reach_lift rf home cwd content bp d hd c hc a hr)
        · intro q hq
          exact hnc q (reach_lift rf home cwd content bp d hd c hc q hq)

theorem map_eq_one {α β : Type} (f : α → β) (l : List α) (x : β)
    (h : l.map f = [x]) : ∃ a, l = [a] ∧ f a = x := by
  cases l with
  | nil => cases h
  | cons a t =>
    cases t with
    | nil =>
      refine ⟨a, rfl, ?_⟩
      simpa using h
    | cons b t2 => simp at h

theorem map_eq_two {α β : Type} (f : α → β) (l : List α) (x y : β)
    (h : l.map f = [x, y]) : ∃ a b, l = [a, b] ∧ f a = x ∧ f b = y := by
  cases l with
  | nil => cases h
  | cons a t =>
    cases t with
    | nil => simp at h
    | cons b t2 =>
      cases t2 with
      | nil =>
        obtain ⟨h1, h2⟩ : f a = x ∧ f b = y := by simpa using h
        exact ⟨a, b, rfl, h1, h2⟩
      | cons e t3 => simp at h

theorem filter_circ_parse_map (bp : Str) (es : List ParseError) :
    (es.map (parseLevelError bp)).filter
      (fun e => e.type == ProcessErrorType.circular_include) = [] := by
  induction es with
  | nil => rfl
  | cons e es ih =>
    rw [List.map_cons, List.filter_cons,
      show ((parseLevelError bp e).type == ProcessErrorType.circular_include) = false
        from rfl]
    simpa using ih

theorem resolveGo_succ_errors (rf : Str → ReadRes) (home cwd : Str) (f : Nat)
    (anc : List Str) (content bp : Str) :
    (resolveGo rf home cwd (f + 1) anc content bp).errors =
      (parseIncludeDirectives home cwd content bp).errors.map (parseLevelError bp) ++
        (handleDirectives rf
          (some (fun p c => resolveGo rf home cwd f (p :: anc) c (dirname p))) anc
          (parseIncludeDirectives home cwd content bp).directives).2.1 := rfl

theorem resolveGo_succ_included (rf : Str → ReadRes) (home cwd : Str) (f : Nat)
    (anc : List Str) (content bp : Str) :
    (resolveGo rf home cwd (f + 1) anc content bp).includedPaths =
      (handleDirectives rf
        (some (fun p c => resolveGo rf home cwd f (p :: anc) c (dirname p))) anc
        (parseIncludeDirectives home cwd content bp).directives).1 := rfl

/-! ### Claim theorems: the Inclusion Resolver -/

/-- Counterexample for C1: the claim quantifies over every file whose
content contains a self-directive, but with two self-directives in `/f`,
a top-level resolve produces four `circular_include` errors, not one (each
top-level expansion re-reads `/f` and then both inner directives hit the
ancestor chain). -/
theorem self_inclusion_twice_multiple_circular_errors :
    "/f".toList ∈ (parseIncludeDirectives "/h".toList "/c".toList
        "@include /f\n@include /f".toList (dirname "/f".toList)).directives.map
        IncludeDirective.resolvedPath ∧
      readSelfTwice "/f".toList = ReadRes.ok "@include /f\n@include /f".toList ∧
      ((resolveIncludes readSelfTwice "/h".toList "/c".toList
          "@include /f\n@include /f".toList (dirname "/f".toList)).errors.filter
          (fun e => e.type == ProcessErrorType.circular_include)).length = 4 := by
  decide

/-- C1 (amended): for a file `F` whose content's only directive resolves to
`F` itself (both against the caller's base path and against `F`'s own
directory), a top-level resolve of `F`'s content terminates — the model is
total by the depth bound — with exactly one `circular_include` error, for
path `F`, and with the self-directive's expansion skipped: `includedPaths`
is exactly `[F]`. -/
theorem self_inclusion_single_circular_error :
    ∀ (rf : Str → ReadRes) (home cwd F c B : Str),
      rf F = ReadRes.ok c →
      (parseIncludeDirectives home cwd c B).directives.map
        IncludeDirective.resolvedPath = [F] →
      (parseIncludeDirectives home cwd c (dirname F)).directives.map
        IncludeDirective.resolvedPath = [F] →
      ((resolveIncludes rf home cwd c B).errors.filter
          (fun e => e.type == ProcessErrorType.circular_include)).map
        ProcessError.filePath = [F] ∧
      (resolveIncludes rf home cwd c B).includedPaths = [F] := by
  intro rf home cwd F c B hF h1 h2
  obtain ⟨d, hds, hdF⟩ := map_eq_one _ _ _ h1
  obtain ⟨d2, hds2, hd2F⟩ := map_eq_one _ _ _ h2
  have hmem2 : d2.resolvedPath ∈ [F] := by
    rw [hd2F]
    exact List.mem_cons_self _ _
  have hsub_err : (resolveGo rf home cwd 9 (F :: []) c (dirname F)).errors =
      (parseIncludeDirectives home cwd c (dirname F)).errors.map
        (parseLevelError (dirname F)) ++ ([circularError d2] ++ []) := by
    rw [show (9 : Nat) = 8 + 1 from rfl, resolveGo_succ_errors, hds2,
      handleDirectives_cons, handleDirectives_nil,
      handleDirective_circ rf _ (F :: []) d2 hmem2]
  have hsub_inc : (resolveGo rf home cwd 9 (F :: []) c (dirname F)).includedPaths = [] := by
    rw [show (9 : Nat) = 8 + 1 from rfl, resolveGo_succ_included, hds2,
      handleDirectives_cons, handleDirectives_nil,
      handleDirective_circ rf _ (F :: []) d2 hmem2]
    rfl
  have hnm : d.resolvedPath ∉ ([] : List Str) := List.not_mem_nil _
  have hok : rf d.resolvedPath = ReadRes.ok c := by
    rw [hdF]
    exact hF
  have htop_err : (resolveIncludes rf home cwd c B).errors =
      (parseIncludeDirectives home cwd c B).errors.map (parseLevelError B) ++
        ((resolveGo rf home cwd 9 (d.resolvedPath :: []) c
          (dirname d.resolvedPath)).errors ++ []) := by
    show (resolveGo rf home cwd 10 [] c B).errors = _
    rw [show (10 : Nat) = 9 + 1 from rfl, resolveGo_succ_errors, hds,
      handleDirectives_cons, handleDirectives_nil,
      handleDirective_ok rf _ [] d c hnm hok]
  have htop_inc : (resolveIncludes rf home cwd c B).includedPaths =
      (d.resolvedPath :: (resolveGo rf home cwd 9 (d.resolvedPath :: []) c
        (dirname d.resolvedPath)).includedPaths) ++ [] := by
    show (resolveGo rf home cwd 10 [] c B).includedPaths = _
    rw [show (10 : Nat) = 9 + 1 from rfl, resolveGo_succ_included, hds,
      handleDirectives_cons, handleDirectives_nil,
      handleDirective_ok rf _ [] d c hnm hok]
  rw [hdF] at htop_err htop_inc
  rw [hsub_err] at htop_err
  rw [hsub_inc] at htop_inc
  constructor
  · rw [htop_err]
    simp only [List.filter_append, filter_circ_parse_map, List.append_nil, List.nil_append]
    rw [show List.filter (fun e => e.type == ProcessErrorType.circular_include)
        [circularError d2] = [circularError d2] from rfl]
    simp [circularError, hd2F]
  · rw [htop_inc]
    simp

/-- Witness for C1 (amended): the concrete self-including file `/f`. -/
theorem self_inclusion_single_circular_error_witness :
    ((resolveIncludes readSelfOnce "/h".toList "/c".toList "@include /f".toList
        "/".toList).errors.filter
        (fun e => e.type == ProcessErrorType.circular_include)).map
      ProcessError.filePath = ["/f".toList] ∧
      (resolveIncludes readSelfOnce "/h".toList "/c".toList "@include /f".toList
        "/".toList).includedPaths = ["/f".toList] :=
  self_inclusion_single_circular_error readSelfOnce "/h".toList "/c".toList
    "/f".toList "@include /f".toList "/".toList (by decide) (by decide) (by decide)

/-- Counterexample for C2: a document whose first two sibling directives
form a diamond on the leaf `/p` (whose subtree trivially does not reach
itself) but whose third directive includes the self-including `/q`: the
claim's hypotheses hold, yet a `circular_include` error is produced. -/
theorem diamond_with_cyclic_sibling_circular_error :
    (parseIncludeDirectives "/h".toList "/c".toList
        "@include /p\n@include /p\n@include /q".toList "/".toList).directives.map
        IncludeDirective.resolvedPath =
      ["/p".toList, "/p".toList, "/q".toList] ∧
      readDiamondCyc "/p".toList = ReadRes.ok "leaf".toList ∧
      (parseIncludeDirectives "/h".toList "/c".toList "leaf".toList
        (dirname "/p".toList)).directives = [] ∧
      ((resolveIncludes readDiamondCyc "/h".toList "/c".toList
          "@include /p\n@include /p\n@include /q".toList "/".toList).errors.filter
          (fun e => e.type == ProcessErrorType.circular_include)).length = 1 := by
  decide

/-- C2 (amended): for a document whose directives are exactly two siblings
resolving to the same readable file `P`, where no file reachable from the
document lies on a cycle of the inclusion graph, a top-level resolve
expands both occurrences independently: `P` appears exactly twice in
`includedPaths` and no `circular_include` error is produced. -/
theorem diamond_inclusion_counted_twice :
    ∀ (rf : Str → ReadRes) (home cwd doc B P cp : Str),
      (parseIncludeDirectives home cwd doc B).directives.map
        IncludeDirective.resolvedPath = [P, P] →
      rf P = ReadRes.ok cp →
      (∀ q, ReachFromDoc rf home cwd doc B q →
        ¬ Relation.TransGen (Step rf home cwd) q q) →
      (resolveIncludes rf home cwd doc B).includedPaths.count P = 2 ∧
      ∀ e ∈ (resolveIncludes rf home cwd doc B).errors,
        e.type ≠ ProcessErrorType.circular_include := by
  intro rf home cwd doc B P cp hdoc hP hnc
  constructor
  · obtain ⟨d1, d2, hds, h1P, h2P⟩ := map_eq_two _ _ _ _ hdoc
    have hok1 : rf d1.resolvedPath = ReadRes.ok cp := by
      rw [h1P]
      exact hP
    have hok2 : rf d2.resolvedPath = ReadRes.ok cp := by
      rw [h2P]
      exact hP
    have htop : (resolveIncludes rf home cwd doc B).includedPaths =
        (d1.resolvedPath :: (resolveGo rf home cwd 9 (d1.resolvedPath :: []) cp
          (dirname d1.resolvedPath)).includedPaths) ++
        ((d2.resolvedPath :: (resolveGo rf home cwd 9 (d2.resolvedPath :: []) cp
          (dirname d2.resolvedPath)).includedPaths) ++ []) := by
      show (resolveGo rf home cwd 10 [] doc B).includedPaths = _
      rw [show (10 : Nat) = 9 + 1 from rfl, resolveGo_succ_included, hds,
        handleDirectives_cons, handleDirectives_cons, handleDirectives_nil,
        handleDirective_ok rf _ [] d1 cp (List.not_mem_nil _) hok1,
        handleDirective_ok rf _ [] d2 cp (List.not_mem_nil _) hok2]
    rw [h1P, h2P] at htop
    have hPnotsub : P ∉ (resolveGo rf home cwd 9 (P :: []) cp
        (dirname P)).includedPaths := by
      intro hmem
      obtain ⟨d0, hd0, hchain⟩ :=
        resolveGo_included_reachable rf home cwd 9 (P :: []) cp (dirname P) P hmem
      exact hnc P
        (reach_of_mem rf home cwd doc B P (by rw [hdoc]; exact List.mem_cons_self _ _))
        (Relation.TransGen.head' ⟨cp, hP, hd0⟩ hchain)
    rw [htop, List.append_nil, List.count_append, List.count_cons_self,
      List.count_eq_zero.mpr hPnotsub]
  · intro e he
    exact resolveGo_no_circular rf home cwd 10 [] doc B
      (fun a ha => absurd ha (List.not_mem_nil a)) hnc e he

/-- Witness for C2 (amended): the concrete diamond on the leaf file `/p`. -/
theorem diamond_inclusion_counted_twice_witness :
    (resolveIncludes readDiamondLeaf "/h".toList "/c".toList
        "@include /p\n@include /p".toList "/".toList).includedPaths.count
      "/p".toList = 2 ∧
      ∀ e ∈ (resolveIncludes readDiamondLeaf "/h".toList "/c".toList
          "@include /p\n@include /p".toList "/".toList).errors,
        e.type ≠ ProcessErrorType.circular_include := by
  refine diamond_inclusion_counted_twice readDiamondLeaf "/h".toList "/c".toList
    ("@include /p\n@include /p".toList) "/".toList "/p".toList "leaf".toList
    (by decide) (by decide) ?_
  have hnostep : ∀ y : Str,
      ¬ Step readDiamondLeaf "/h".toList "/c".toList "/p".toList y := by
    intro y hy
    obtain ⟨c, hc, hmem⟩ := hy
    have hcl : ReadRes.ok "leaf".toList = ReadRes.ok c := by
      rw [← hc]
      decide
    injection hcl with hcl
    rw [← hcl] at hmem
    have hempty : (parseIncludeDirectives "/h".toList "/c".toList "leaf".toList
        (dirname "/p".toList)).directives.map IncludeDirective.resolvedPath = [] := by
      decide
    rw [hempty] at hmem
    cases hmem
  intro q hq hcyc
  obtain ⟨d0, hd0, hchain⟩ := hq
  have hd0p : d0 = "/p".toList := by
    have hmap : (parseIncludeDirectives "/h".toList "/c".toList
        "@include /p\n@include /p".toList "/".toList).directives.map
        IncludeDirective.resolvedPath = ["/p".toList, "/p".toList] := by
      decide
    rw [hmap] at hd0
    rcases List.mem_cons.mp hd0 with h | h
    · exact h
    · rcases List.mem_cons.mp h with h | h
      · exact h
      · cases h
  rw [hd0p] at hchain
  have hqp : q = "/p".toList := by
    rcases Relation.ReflTransGen.cases_head hchain with h | ⟨c2, hstep, _⟩
    · exact h.symm
    · exact absurd hstep (hnostep c2)
  rw [hqp] at hcyc
  obtain ⟨b, hstep, _⟩ := Relation.TransGen.head'_iff.mp hcyc
  exact hnostep b hstep

end IncludeResolution

